import Mathlib

set_option maxHeartbeats 1000000
set_option maxRecDepth 100000

/-! Shallow embedding of the core of the japanese-codepoints crate:
the `CodePoints` type (src/codepoints.rs), the ASCII data tables
(src/data/ascii.rs and the build.rs merge step), and the validation
layer (src/validation.rs). A Rust `&str` is modelled as a `List Char`,
matching iteration by `str::chars()` over Unicode scalar values, and the
backing `HashSet<u32>` is modelled as a `Finset ℕ`. -/

/-- The `CodePoints` struct of src/codepoints.rs: an unordered,
deduplicated collection of allowed code points. -/
structure CodePoints where
  codepoints : Finset ℕ
  deriving DecidableEq

namespace CodePoints

/-- `CodePoints::new`: collects a vector of code points into the backing
set, deduplicating; input order is irrelevant to the result. -/
def new (v : List ℕ) : CodePoints :=
  ⟨v.toFinset⟩

/-- `CodePoints::from_string`: the set of scalar values of the characters
of `s` (`s.chars().map(|c| c as u32).collect()`). -/
def from_string (s : List Char) : CodePoints :=
  ⟨(s.map Char.toNat).toFinset⟩

/-- `CodePoints::contains`: `s.chars().all(|c| self.codepoints.contains(&(c as u32)))`. -/
def contains (S : CodePoints) (s : List Char) : Bool :=
  s.all fun c => decide (c.toNat ∈ S.codepoints)

/-- Modelled from the spec: `CodePoints::contains_char` is called by
`validate_all_in_any` and by the crate's examples, but its definition is
not under src/. Per the spec it is true iff the single scalar value `c`
is a member of the set. -/
def contains_char (S : CodePoints) (c : Char) : Bool :=
  decide (c.toNat ∈ S.codepoints)

/-- Loop of `CodePoints::first_excluded_with_position`
(`s.chars().enumerate().find_map(..)`), carrying the running character
index of the enumeration. -/
def firstExcludedAux (S : CodePoints) : List Char → ℕ → Option (ℕ × ℕ)
  | [], _ => none
  | c :: cs, i =>
    if c.toNat ∈ S.codepoints then firstExcludedAux S cs (i + 1)
    else some (c.toNat, i)

/-- `CodePoints::first_excluded_with_position`: first scalar value of `s`
not in the set, together with its zero-based character index. -/
def first_excluded_with_position (S : CodePoints) (s : List Char) : Option (ℕ × ℕ) :=
  firstExcludedAux S s 0

/-- `CodePoints::first_excluded`: the position is discarded. -/
def first_excluded (S : CodePoints) (s : List Char) : Option ℕ :=
  (S.first_excluded_with_position s).map Prod.fst

/-- Loop of `CodePoints::all_excluded`, carrying the `seen` set; a code
point is pushed when it is excluded and `seen.insert(cp)` returns true. -/
def allExcludedAux (S : CodePoints) : List Char → Finset ℕ → List ℕ
  | [], _ => []
  | c :: cs, seen =>
    if c.toNat ∉ S.codepoints ∧ c.toNat ∉ seen then
      c.toNat :: allExcludedAux S cs (insert c.toNat seen)
    else
      allExcludedAux S cs seen

/-- `CodePoints::all_excluded`: every distinct excluded scalar value of
`s`, in first-occurrence order. -/
def all_excluded (S : CodePoints) (s : List Char) : List ℕ :=
  allExcludedAux S s ∅

/-- `CodePoints::union`: clones the backing set and extends it with the
other set's code points. -/
def union (S T : CodePoints) : CodePoints :=
  ⟨S.codepoints ∪ T.codepoints⟩

/-- `CodePoints::len`. -/
def len (S : CodePoints) : ℕ :=
  S.codepoints.card

/-- `CodePoints::is_empty`. -/
def is_empty (S : CodePoints) : Bool :=
  decide (S.codepoints = ∅)

/-- The `Hash for CodePoints` impl (src/codepoints.rs): the code points
are collected, sorted, and the sorted view is what is fed to the hasher;
we model the hasher input. -/
def hashView (S : CodePoints) : List ℕ :=
  Finset.sort (· ≤ ·) S.codepoints

/-- `CONTROL_CHARS` from src/data/ascii.rs: the 33 ASCII control
characters 0x00–0x1F and DEL 0x7F. -/
def CONTROL_CHARS : List ℕ :=
  [0x0000, 0x0001, 0x0002, 0x0003, 0x0004, 0x0005, 0x0006, 0x0007,
   0x0008, 0x0009, 0x000A, 0x000B, 0x000C, 0x000D, 0x000E, 0x000F,
   0x0010, 0x0011, 0x0012, 0x0013, 0x0014, 0x0015, 0x0016, 0x0017,
   0x0018, 0x0019, 0x001A, 0x001B, 0x001C, 0x001D, 0x001E, 0x001F,
   0x007F]

/-- `PRINTABLE_CHARS` from src/data/ascii.rs: the 95 printable ASCII
characters 0x20–0x7E. -/
def PRINTABLE_CHARS : List ℕ :=
  [0x0020, 0x0021, 0x0022, 0x0023, 0x0024, 0x0025, 0x0026, 0x0027,
   0x0028, 0x0029, 0x002A, 0x002B, 0x002C, 0x002D, 0x002E, 0x002F,
   0x0030, 0x0031, 0x0032, 0x0033, 0x0034, 0x0035, 0x0036, 0x0037,
   0x0038, 0x0039, 0x003A, 0x003B, 0x003C, 0x003D, 0x003E, 0x003F,
   0x0040, 0x0041, 0x0042, 0x0043, 0x0044, 0x0045, 0x0046, 0x0047,
   0x0048, 0x0049, 0x004A, 0x004B, 0x004C, 0x004D, 0x004E, 0x004F,
   0x0050, 0x0051, 0x0052, 0x0053, 0x0054, 0x0055, 0x0056, 0x0057,
   0x0058, 0x0059, 0x005A, 0x005B, 0x005C, 0x005D, 0x005E, 0x005F,
   0x0060, 0x0061, 0x0062, 0x0063, 0x0064, 0x0065, 0x0066, 0x0067,
   0x0068, 0x0069, 0x006A, 0x006B, 0x006C, 0x006D, 0x006E, 0x006F,
   0x0070, 0x0071, 0x0072, 0x0073, 0x0074, 0x0075, 0x0076, 0x0077,
   0x0078, 0x0079, 0x007A, 0x007B, 0x007C, 0x007D, 0x007E]

/-- `CRLF_CHARS` from src/data/ascii.rs. -/
def CRLF_CHARS : List ℕ :=
  [0x000A, 0x000D]

/-- `ALL_ASCII`: build.rs `generate_ascii_merged` concatenates the
control, printable and CRLF tables (so 0x0A and 0x0D occur twice). -/
def ALL_ASCII : List ℕ :=
  CONTROL_CHARS ++ PRINTABLE_CHARS ++ CRLF_CHARS

/-- `CodePoints::ascii_control`. -/
def ascii_control : CodePoints :=
  new CONTROL_CHARS

/-- `CodePoints::ascii_printable`. -/
def ascii_printable : CodePoints :=
  new PRINTABLE_CHARS

/-- `CodePoints::crlf`. -/
def crlf : CodePoints :=
  new CRLF_CHARS

/-- `CodePoints::ascii_all`. -/
def ascii_all : CodePoints :=
  new ALL_ASCII

/-- One step of the `excluded_counts` HashMap update in
`CodePoints::contains_all_in_any`: `*entry(cp).or_insert(0) += 1`. -/
def bumpCount : List (ℕ × ℕ) → ℕ → List (ℕ × ℕ)
  | [], cp => [(cp, 1)]
  | (k, v) :: rest, cp =>
    if k = cp then (k, v + 1) :: rest else (k, v) :: bumpCount rest cp

/-- The set-list loop of `CodePoints::contains_all_in_any`: returns true
early when some set excludes nothing, otherwise accumulates per-code-point
exclusion counts and finally fails iff some counted code point was
excluded by all `total` sets. -/
def caiaLoop (s : List Char) (total : ℕ) : List CodePoints → List (ℕ × ℕ) → Bool
  | [], counts => !(counts.any fun p => decide (p.2 = total))
  | S :: rest, counts =>
    let excluded := S.all_excluded s
    if excluded.isEmpty then true
    else caiaLoop s total rest (excluded.foldl bumpCount counts)

/-- `CodePoints::contains_all_in_any` (src/codepoints.rs): false for an
empty set list, otherwise the counting loop over the sets. -/
def contains_all_in_any (s : List Char) (l : List CodePoints) : Bool :=
  if l.isEmpty then false
  else caiaLoop s l.length l []

end CodePoints

/-- Single uppercase hexadecimal digit, as produced by Rust `{:X}`
formatting. -/
def hexDigitChar (d : ℕ) : Char :=
  if d < 10 then Char.ofNat (48 + d) else Char.ofNat (55 + d)

/-- Digit loop for uppercase hexadecimal rendering, structurally
recursive on a fuel argument so that it evaluates by reduction; the fuel
`n + 1` always suffices since the value shrinks at every division. -/
def hexCharsAux (fuel : ℕ) (n : ℕ) : List Char :=
  match fuel with
  | 0 => []
  | fuel + 1 =>
    if n < 16 then [hexDigitChar n]
    else hexCharsAux fuel (n / 16) ++ [hexDigitChar (n % 16)]

/-- Uppercase hexadecimal digits of `n`, most significant first. -/
def hexChars (n : ℕ) : List Char :=
  hexCharsAux (n + 1) n

/-- Rust `format!("{:04X}", n)`: the uppercase hexadecimal digits of `n`,
zero-padded on the left to a width of at least four. -/
def hex04X (n : ℕ) : String :=
  String.mk (List.replicate (4 - (hexChars n).length) '0' ++ hexChars n)

/-- The ASCII apostrophe character, U+0027, used by the error message
format of src/validation.rs. -/
def aposChar : Char :=
  Char.ofNat 39

/-- `ValidationError` from src/validation.rs. -/
structure ValidationError where
  code_point : ℕ
  position : ℕ
  message : String
  deriving DecidableEq

/-- `ValidationError::new` (src/validation.rs): the glyph is
`char::from_u32(code_point).unwrap_or(U+FFFD)` and the message is
rendered by `format!` as the invalid-character diagnostic. -/
def ValidationError.new (cp pos : ℕ) : ValidationError :=
  let ch : Char := if Nat.isValidChar cp then Char.ofNat cp else Char.ofNat 0xFFFD
  { code_point := cp
    position := pos
    message :=
      "invalid character " ++ String.singleton aposChar ++ String.singleton ch ++
        String.singleton aposChar ++ " (U+" ++ hex04X cp ++ ") at position " ++
        Nat.repr pos }

/-- Modelled from the spec: `CodePoints::validate` is called by the
crate's examples, doc tests and wrapper types, but its definition is not
under src/. Per the spec it returns `Ok` iff `contains(text)` holds, and
otherwise an error built by `ValidationError::new` from the code point
and character index given by `first_excluded_with_position(text)`. -/
def CodePoints.validate (S : CodePoints) (s : List Char) : Except ValidationError Unit :=
  match S.first_excluded_with_position s with
  | none => Except.ok ()
  | some (cp, pos) => Except.error (ValidationError.new cp pos)

/-- Loop of `validate_all_in_any` (src/validation.rs), carrying the
running character index of `text.chars().enumerate()`. -/
def vaiaAux (sets : List CodePoints) : List Char → ℕ → Except ValidationError Unit
  | [], _ => Except.ok ()
  | c :: cs, i =>
    if sets.any fun S => S.contains_char c then vaiaAux sets cs (i + 1)
    else Except.error (ValidationError.new c.toNat i)

/-- `validate_all_in_any` (src/validation.rs): returns the first
character of `text` contained in none of `sets`, as a `ValidationError`. -/
def validate_all_in_any (text : List Char) (sets : List CodePoints) :
    Except ValidationError Unit :=
  vaiaAux sets text 0

deriving instance DecidableEq for Except

/-! ### Basic lemmas about the embedding -/

theorem mem_new (v : List ℕ) (x : ℕ) :
    x ∈ (CodePoints.new v).codepoints ↔ x ∈ v := by
  simp [CodePoints.new]

theorem contains_iff (S : CodePoints) (s : List Char) :
    S.contains s = true ↔ ∀ c ∈ s, c.toNat ∈ S.codepoints := by
  simp [CodePoints.contains]

theorem char_toNat_isValidChar (c : Char) : Nat.isValidChar c.toNat :=
  c.valid

/-! ### Hexadecimal rendering lemmas -/

/-- Numeric value of one uppercase hexadecimal digit character, the
reading direction of the `U+XXXX` field of the error message. -/
def hexVal (c : Char) : ℕ :=
  if c.toNat ≤ 57 then c.toNat - 48 else c.toNat - 55

/-- Number denoted by a string of uppercase hexadecimal digits. -/
def hexStringVal (t : String) : ℕ :=
  t.data.foldl (fun acc c => 16 * acc + hexVal c) 0

theorem hexVal_hexDigitChar : ∀ d, d < 16 → hexVal (hexDigitChar d) = d := by
  decide

theorem hexCharsAux_ne_nil (fuel n : ℕ) (h : n < fuel) : hexCharsAux fuel n ≠ [] := by
  cases fuel with
  | zero => omega
  | succ fuel =>
    unfold hexCharsAux
    split
    · simp
    · simp

theorem hexCharsAux_foldl (fuel : ℕ) :
    ∀ n, n < fuel → ∀ a,
      (hexCharsAux fuel n).foldl (fun acc c => 16 * acc + hexVal c) a =
        a * 16 ^ (hexCharsAux fuel n).length + n := by
  induction fuel with
  | zero => omega
  | succ fuel ih =>
    intro n hn a
    unfold hexCharsAux
    split
    · next h =>
      simp [List.foldl, hexVal_hexDigitChar n h]
      omega
    · next h =>
      have hdiv : n / 16 < fuel := by
        have h1 : n / 16 < n := Nat.div_lt_self (by omega) (by omega)
        omega
      rw [List.foldl_append, ih (n / 16) hdiv a]
      simp only [List.foldl, List.length_append, List.length_singleton]
      rw [hexVal_hexDigitChar (n % 16) (Nat.mod_lt _ (by omega))]
      have := Nat.div_add_mod n 16
      ring_nf
      omega

theorem foldl_replicate_zero (k : ℕ) :
    (List.replicate k '0').foldl (fun acc c => 16 * acc + hexVal c) 0 = 0 := by
  induction k with
  | zero => rfl
  | succ k ih => simpa [List.replicate] using ih

theorem hexStringVal_hex04X (n : ℕ) : hexStringVal (hex04X n) = n := by
  show (List.replicate (4 - (hexChars n).length) '0' ++ hexChars n).foldl
      (fun acc c => 16 * acc + hexVal c) 0 = n
  rw [List.foldl_append, foldl_replicate_zero]
  show (hexCharsAux (n + 1) n).foldl (fun acc c => 16 * acc + hexVal c) 0 = n
  rw [hexCharsAux_foldl (n + 1) n (Nat.lt_succ_self n) 0]
  simp

theorem hex04X_length (n : ℕ) : 4 ≤ (hex04X n).length := by
  show 4 ≤ (List.replicate (4 - (hexChars n).length) '0' ++ hexChars n).length
  rw [List.length_append, List.length_replicate]
  omega

/-! ### First-excluded scanning lemmas -/

theorem firstExcludedAux_eq_none_iff (S : CodePoints) (s : List Char) :
    ∀ i, CodePoints.firstExcludedAux S s i = none ↔ ∀ c ∈ s, c.toNat ∈ S.codepoints := by
  induction s with
  | nil => intro i; simp [CodePoints.firstExcludedAux]
  | cons c cs ih =>
    intro i
    unfold CodePoints.firstExcludedAux
    split
    · next h => simp [ih (i + 1), h]
    · next h => simp [h]

theorem first_excluded_with_position_eq_none_iff (S : CodePoints) (s : List Char) :
    S.first_excluded_with_position s = none ↔ S.contains s = true := by
  rw [CodePoints.first_excluded_with_position, firstExcludedAux_eq_none_iff,
    contains_iff]

/-! ### C1: validate agrees with contains and renders the documented message -/

/-- C1. For every set `S` and string `s`, `S.validate s` is `Ok` iff
`S.contains s`; otherwise it is the `Err` built by `ValidationError::new`
from the code point and character index of `first_excluded_with_position`,
whose message renders as `invalid character 'X' (U+XXXX) at position N`
with the offending character (replacement glyph U+FFFD when the code
point is no valid scalar value), the code point in zero-padded uppercase
hexadecimal of at least four digits, and the zero-based position. -/
theorem validate_ok_iff_contains_and_error_message (S : CodePoints) (s : List Char) :
    (S.validate s = Except.ok () ↔ S.contains s = true) ∧
    (∀ cp pos, S.first_excluded_with_position s = some (cp, pos) →
      S.validate s = Except.error (ValidationError.new cp pos) ∧
      (ValidationError.new cp pos).code_point = cp ∧
      (ValidationError.new cp pos).position = pos ∧
      (ValidationError.new cp pos).message =
        "invalid character " ++ String.singleton aposChar ++
          String.singleton
            (if Nat.isValidChar cp then Char.ofNat cp else Char.ofNat 0xFFFD) ++
          String.singleton aposChar ++ " (U+" ++ hex04X cp ++ ") at position " ++
          Nat.repr pos ∧
      4 ≤ (hex04X cp).length ∧ hexStringVal (hex04X cp) = cp) := by
  constructor
  · rw [← first_excluded_with_position_eq_none_iff]
    unfold CodePoints.validate
    cases h : S.first_excluded_with_position s with
    | none => simp
    | some p => simp
  · intro cp pos h
    refine ⟨?_, rfl, rfl, rfl, hex04X_length cp, hexStringVal_hex04X cp⟩
    unfold CodePoints.validate
    rw [h]

/-- Witness for C1 at `S = new [0x61]`, `s = "ab"`: the hypothesis
`first_excluded_with_position = some (0x62, 1)` is discharged by
evaluation and the instantiated error equation follows. -/
theorem validate_ok_iff_contains_and_error_message_witness :
    (CodePoints.new [97]).first_excluded_with_position ['a', 'b'] = some (98, 1) ∧
    (CodePoints.new [97]).validate ['a', 'b'] = Except.error (ValidationError.new 98 1) :=
  ⟨by decide,
    ((validate_ok_iff_contains_and_error_message (CodePoints.new [97]) ['a', 'b']).2
      98 1 (by decide)).1⟩

/-! ### C4: empty set list -/

/-- C4. `contains_all_in_any` returns false for an empty set list,
whatever the text (the empty text included). -/
theorem contains_all_in_any_empty_list (s : List Char) :
    CodePoints.contains_all_in_any s [] = false :=
  rfl

/-! ### C9: a set built from a string accepts that string -/

/-- C9. `CodePoints::from_string(s).contains(s)` always holds. -/
theorem from_string_contains_self (s : List Char) :
    (CodePoints.from_string s).contains s = true := by
  rw [contains_iff]
  intro c hc
  simp [CodePoints.from_string]
  exact ⟨c, hc, rfl⟩

/-! ### C7: the merged ASCII table deduplicates to the 128 ASCII characters -/

/-- C7. `ascii_all` equals the union of `ascii_control` (33 code points)
and `ascii_printable` (95 code points) and has length 128, although the
build-time `ALL_ASCII` table concatenates the control, printable and CRLF
tables into 130 entries with 0x0A and 0x0D listed twice. -/
theorem ascii_all_eq_union_control_printable :
    CodePoints.ascii_all = (CodePoints.ascii_control).union CodePoints.ascii_printable ∧
    CodePoints.ascii_all.len = 128 ∧
    CodePoints.ascii_control.len = 33 ∧
    CodePoints.ascii_printable.len = 95 ∧
    CodePoints.ALL_ASCII.length = 130 ∧
    CodePoints.ALL_ASCII.count 0x000A = 2 ∧
    CodePoints.ALL_ASCII.count 0x000D = 2 := by
  refine ⟨?_, by decide, by decide, by decide, by decide, by decide, by decide⟩
  have hsub : CodePoints.CRLF_CHARS.toFinset ⊆
      CodePoints.CONTROL_CHARS.toFinset ∪ CodePoints.PRINTABLE_CHARS.toFinset := by
    decide
  show CodePoints.new CodePoints.ALL_ASCII =
    (CodePoints.new CodePoints.CONTROL_CHARS).union (CodePoints.new CodePoints.PRINTABLE_CHARS)
  unfold CodePoints.new CodePoints.union
  have : CodePoints.ALL_ASCII.toFinset =
      CodePoints.CONTROL_CHARS.toFinset ∪ CodePoints.PRINTABLE_CHARS.toFinset := by
    show (CodePoints.CONTROL_CHARS ++ CodePoints.PRINTABLE_CHARS ++
      CodePoints.CRLF_CHARS).toFinset = _
    rw [List.toFinset_append, List.toFinset_append, Finset.union_eq_left.mpr hsub]
  rw [this]

/-! ### C8: value-equal constructor inputs give equal, hash-equal sets -/

/-- C8. Two vectors with the same distinct values (whatever the order or
multiplicity) build equal `CodePoints`, and the sorted view fed to the
hasher is identical, so the hash values agree. -/
theorem new_eq_and_hashView_eq_of_same_values (v1 v2 : List ℕ)
    (h : ∀ x, x ∈ v1 ↔ x ∈ v2) :
    CodePoints.new v1 = CodePoints.new v2 ∧
    CodePoints.hashView (CodePoints.new v1) = CodePoints.hashView (CodePoints.new v2) := by
  have hfin : v1.toFinset = v2.toFinset := by
    apply Finset.ext
    intro x
    simp [h x]
  constructor
  · unfold CodePoints.new
    rw [hfin]
  · unfold CodePoints.hashView CodePoints.new
    rw [hfin]

/-- Witness for C8 at `v1 = [2, 1, 2]`, `v2 = [1, 2]`. -/
theorem new_eq_and_hashView_eq_of_same_values_witness :
    CodePoints.new [2, 1, 2] = CodePoints.new [1, 2] ∧
    CodePoints.hashView (CodePoints.new [2, 1, 2]) =
      CodePoints.hashView (CodePoints.new [1, 2]) :=
  new_eq_and_hashView_eq_of_same_values [2, 1, 2] [1, 2] (by intro x; simp; omega)

/-! ### C10: construction accepts non-scalar values, which never match a string -/

/-- C10. `CodePoints::new` stores every input value, valid Unicode scalar
or not, and `len` counts them; but a value that is no valid scalar never
equals the scalar value of any character, so dropping the invalid values
from the input never changes `contains` on any string. -/
theorem new_stores_invalid_values_without_effect (v : List ℕ) (s : List Char) :
    (∀ n ∈ v, n ∈ (CodePoints.new v).codepoints) ∧
    (CodePoints.new v).len = v.toFinset.card ∧
    (∀ (c : Char) (n : ℕ), ¬ Nat.isValidChar n → c.toNat ≠ n) ∧
    ((CodePoints.new v).contains s =
      (CodePoints.new (v.filter fun n => decide (Nat.isValidChar n))).contains s) := by
  refine ⟨?_, rfl, ?_, ?_⟩
  · intro n hn
    exact (mem_new v n).mpr hn
  · intro c n hnv heq
    exact hnv (heq ▸ char_toNat_isValidChar c)
  · cases hv : (CodePoints.new v).contains s with
    | true =>
      symm
      rw [contains_iff] at hv ⊢
      intro c hc
      rw [mem_new]
      rw [List.mem_filter]
      exact ⟨(mem_new v c.toNat).mp (hv c hc), decide_eq_true (char_toNat_isValidChar c)⟩
    | false =>
      symm
      rw [← Bool.not_eq_true] at hv ⊢
      rw [contains_iff] at hv ⊢
      intro hall
      apply hv
      intro c hc
      have := hall c hc
      rw [mem_new, List.mem_filter] at this
      exact (mem_new v c.toNat).mpr this.1

/-- Witness for C10 at `v = [0xD800, 0x61]` (a surrogate value) and
`s = "a"`: the surrogate is stored and counted but does not affect
`contains`. -/
theorem new_stores_invalid_values_without_effect_witness :
    0xD800 ∈ (CodePoints.new [0xD800, 0x61]).codepoints ∧
    (CodePoints.new [0xD800, 0x61]).len = 2 ∧
    (CodePoints.new [0xD800, 0x61]).contains ['a'] =
      (CodePoints.new ([0xD800, 0x61].filter fun n => decide (Nat.isValidChar n))).contains ['a'] :=
  ⟨(new_stores_invalid_values_without_effect [0xD800, 0x61] ['a']).1 0xD800 (by decide),
    by decide,
    (new_stores_invalid_values_without_effect [0xD800, 0x61] ['a']).2.2.2⟩

/-! ### all_excluded lemmas -/

theorem mem_allExcludedAux (S : CodePoints) (s : List Char) :
    ∀ seen cp, cp ∈ CodePoints.allExcludedAux S s seen ↔
      cp ∉ seen ∧ cp ∉ S.codepoints ∧ cp ∈ s.map Char.toNat := by
  induction s with
  | nil => intro seen cp; simp [CodePoints.allExcludedAux]
  | cons c cs ih =>
    intro seen cp
    unfold CodePoints.allExcludedAux
    split
    · next h =>
      rw [List.mem_cons, ih]
      simp only [List.map_cons, List.mem_cons, Finset.mem_insert, not_or]
      by_cases hcp : cp = c.toNat
      · subst hcp; simp [h.1, h.2]
      · simp [hcp]
    · next h =>
      rw [ih]
      simp only [List.map_cons, List.mem_cons]
      by_cases hcp : cp = c.toNat
      · subst hcp
        constructor
        · rintro ⟨h1, h2, h3⟩; exact ⟨h1, h2, Or.inr h3⟩
        · rintro ⟨h1, h2, _⟩; exact absurd ⟨h2, h1⟩ h
      · simp [hcp]
  
theorem mem_all_excluded (S : CodePoints) (s : List Char) (cp : ℕ) :
    cp ∈ S.all_excluded s ↔ cp ∈ s.map Char.toNat ∧ cp ∉ S.codepoints := by
  rw [CodePoints.all_excluded, mem_allExcludedAux]
  simp [and_comm]

theorem nodup_allExcludedAux (S : CodePoints) (s : List Char) :
    ∀ seen, (CodePoints.allExcludedAux S s seen).Nodup := by
  induction s with
  | nil => intro seen; simp [CodePoints.allExcludedAux]
  | cons c cs ih =>
    intro seen
    unfold CodePoints.allExcludedAux
    split
    · next h =>
      refine List.Nodup.cons ?_ (ih _)
      intro hmem
      rw [mem_allExcludedAux] at hmem
      exact hmem.1 (Finset.mem_insert_self _ _)
    · exact ih _

theorem allExcludedAux_elt_ne_head (S : CodePoints) (cs : List Char) (c : Char)
    (seen : Finset ℕ) (h : ¬(c.toNat ∉ S.codepoints ∧ c.toNat ∉ seen)) :
    ∀ x ∈ CodePoints.allExcludedAux S cs seen, x ≠ c.toNat := by
  intro x hx
  rw [mem_allExcludedAux] at hx
  intro hxc
  subst hxc
  exact h ⟨hx.2.1, hx.1⟩

theorem pairwise_allExcludedAux (S : CodePoints) (s : List Char) :
    ∀ seen, (CodePoints.allExcludedAux S s seen).Pairwise
      (fun x y => (s.map Char.toNat).indexOf x < (s.map Char.toNat).indexOf y) := by
  induction s with
  | nil => intro seen; simp [CodePoints.allExcludedAux]
  | cons c cs ih =>
    intro seen
    unfold CodePoints.allExcludedAux
    split
    · next h =>
      refine List.Pairwise.cons ?_ ?_
      · intro y hy
        have hyne : y ≠ c.toNat := by
          rw [mem_allExcludedAux] at hy
          intro hyc
          subst hyc
          exact hy.1 (Finset.mem_insert_self _ _)
        simp only [List.map_cons]
        rw [List.indexOf_cons_self, List.indexOf_cons_ne _ (Ne.symm hyne)]
        omega
      · refine List.Pairwise.imp_of_mem ?_ (ih (insert c.toNat seen))
        intro x y hx hy hxy
        have hxne : x ≠ c.toNat := by
          rw [mem_allExcludedAux] at hx
          intro hc; subst hc; exact hx.1 (Finset.mem_insert_self _ _)
        have hyne : y ≠ c.toNat := by
          rw [mem_allExcludedAux] at hy
          intro hc; subst hc; exact hy.1 (Finset.mem_insert_self _ _)
        simp only [List.map_cons]
        rw [List.indexOf_cons_ne _ (Ne.symm hxne), List.indexOf_cons_ne _ (Ne.symm hyne)]
        omega
    · next h =>
      refine List.Pairwise.imp_of_mem ?_ (ih seen)
      intro x y hx hy hxy
      have hxne : x ≠ c.toNat := allExcludedAux_elt_ne_head S cs c seen h x hx
      have hyne : y ≠ c.toNat := allExcludedAux_elt_ne_head S cs c seen h y hy
      simp only [List.map_cons]
      rw [List.indexOf_cons_ne _ (Ne.symm hxne), List.indexOf_cons_ne _ (Ne.symm hyne)]
      omega

/-! ### C5: all_excluded returns the distinct excluded values in first-occurrence order -/

/-- C5. `S.all_excluded s` holds exactly the distinct scalar values of
`s` that are not members of `S`, without duplicates, ordered by the
position of each value's first occurrence in `s`; it is empty for empty
input or when nothing is excluded. -/
theorem all_excluded_distinct_first_occurrence (S : CodePoints) (s : List Char) :
    (S.all_excluded s).Nodup ∧
    (∀ cp, cp ∈ S.all_excluded s ↔ cp ∈ s.map Char.toNat ∧ cp ∉ S.codepoints) ∧
    (S.all_excluded s).Pairwise
      (fun x y => (s.map Char.toNat).indexOf x < (s.map Char.toNat).indexOf y) ∧
    S.all_excluded [] = [] ∧
    (S.contains s = true → S.all_excluded s = []) := by
  refine ⟨nodup_allExcludedAux S s ∅, mem_all_excluded S s, pairwise_allExcludedAux S s ∅,
    rfl, ?_⟩
  intro hcont
  rw [List.eq_nil_iff_forall_not_mem]
  intro cp hcp
  rw [mem_all_excluded] at hcp
  obtain ⟨hmem, hout⟩ := hcp
  rw [List.mem_map] at hmem
  obtain ⟨c, hc, rfl⟩ := hmem
  exact hout ((contains_iff S s).mp hcont c hc)

/-- Witness for C5 at `S = new [0x61]`, `s = "a"`: the containment
hypothesis is discharged by evaluation and the exclusion list is empty. -/
theorem all_excluded_distinct_first_occurrence_witness :
    (CodePoints.new [97]).contains ['a'] = true ∧
    (CodePoints.new [97]).all_excluded ['a'] = [] :=
  ⟨by decide,
    (all_excluded_distinct_first_occurrence (CodePoints.new [97]) ['a']).2.2.2.2 (by decide)⟩

/-! ### Position-shift lemmas for the scanning loop -/

theorem firstExcludedAux_append_of_contained (S : CodePoints) (pre t : List Char)
    (h : ∀ c ∈ pre, c.toNat ∈ S.codepoints) :
    ∀ i, CodePoints.firstExcludedAux S (pre ++ t) i =
      CodePoints.firstExcludedAux S t (i + pre.length) := by
  induction pre with
  | nil => intro i; simp
  | cons c cs ih =>
    intro i
    have hc : c.toNat ∈ S.codepoints := h c (List.mem_cons_self c cs)
    show (if c.toNat ∈ S.codepoints then CodePoints.firstExcludedAux S (cs ++ t) (i + 1)
        else some (c.toNat, i)) =
      CodePoints.firstExcludedAux S t (i + (c :: cs).length)
    rw [if_pos hc, ih (fun c hc => h c (List.mem_cons_of_mem _ hc)) (i + 1)]
    have harith : i + 1 + cs.length = i + (c :: cs).length := by
      simp only [List.length_cons]
      omega
    rw [harith]

theorem firstExcludedAux_shift (S : CodePoints) (t : List Char) :
    ∀ i, CodePoints.firstExcludedAux S t i =
      (CodePoints.firstExcludedAux S t 0).map fun p => (p.1, p.2 + i) := by
  induction t with
  | nil => intro i; simp [CodePoints.firstExcludedAux]
  | cons c cs ih =>
    intro i
    unfold CodePoints.firstExcludedAux
    by_cases h : c.toNat ∈ S.codepoints
    · rw [if_pos h, if_pos h, ih (i + 1), ih 1]
      cases CodePoints.firstExcludedAux S cs 0 with
      | none => simp
      | some p =>
        simp only [Option.map_some', Option.some.injEq, Prod.mk.injEq]
        exact ⟨trivial, by omega⟩
    · rw [if_neg h, if_neg h]
      simp

/-! ### C6: characters outside the BMP count as a single unit -/

/-- C6. A character whose scalar value lies outside the Basic
Multilingual Plane is one indivisible unit for `contains`,
`first_excluded_with_position` and `all_excluded`: it contributes exactly
one scalar value to the membership and exclusion checks and occupies
exactly one character position (subsequent positions shift by one, never
two). -/
theorem non_bmp_char_is_single_unit (S : CodePoints) (pre suf : List Char) (c : Char)
    (hc : 0x10000 ≤ c.toNat) :
    (S.contains (pre ++ c :: suf) =
      (S.contains pre && S.contains_char c && S.contains suf)) ∧
    (S.contains pre = true → c.toNat ∉ S.codepoints →
      S.first_excluded_with_position (pre ++ c :: suf) = some (c.toNat, pre.length)) ∧
    (S.contains pre = true → c.toNat ∈ S.codepoints →
      S.first_excluded_with_position (pre ++ c :: suf) =
        (S.first_excluded_with_position suf).map fun p => (p.1, p.2 + (pre.length + 1))) ∧
    ((S.all_excluded (pre ++ c :: suf)).count c.toNat =
      if c.toNat ∈ S.codepoints then 0 else 1) := by
  refine ⟨?_, ?_, ?_, ?_⟩
  · simp [CodePoints.contains, CodePoints.contains_char, Bool.and_assoc]
  · intro hpre hout
    rw [CodePoints.first_excluded_with_position,
      firstExcludedAux_append_of_contained S pre (c :: suf)
        (fun c hc => (contains_iff S pre).mp hpre c hc) 0]
    unfold CodePoints.firstExcludedAux
    rw [if_neg hout]
    simp
  · intro hpre hin
    rw [CodePoints.first_excluded_with_position,
      firstExcludedAux_append_of_contained S pre (c :: suf)
        (fun c hc => (contains_iff S pre).mp hpre c hc) 0]
    unfold CodePoints.firstExcludedAux
    rw [if_pos hin, firstExcludedAux_shift S suf (0 + pre.length + 1)]
    rw [CodePoints.first_excluded_with_position]
    cases CodePoints.firstExcludedAux S suf 0 with
    | none => simp
    | some p =>
      simp only [Option.map_some', Option.some.injEq, Prod.mk.injEq]
      exact ⟨trivial, by omega⟩
  · by_cases hin : c.toNat ∈ S.codepoints
    · rw [if_pos hin, List.count_eq_zero]
      intro hmem
      rw [mem_all_excluded] at hmem
      exact hmem.2 hin
    · rw [if_neg hin]
      refine List.count_eq_one_of_mem (nodup_allExcludedAux S _ ∅) ?_
      rw [mem_all_excluded]
      refine ⟨?_, hin⟩
      simp

/-- Witness for C6 at `S = new [0x2000B, 0x3042]`, `pre = [あ]`,
`c = U+2000B`, `suf = [x]`: the non-BMP hypothesis and the membership
hypotheses are discharged by evaluation. -/
theorem non_bmp_char_is_single_unit_witness :
    0x10000 ≤ (Char.ofNat 0x2000B).toNat ∧
    (CodePoints.new [0x2000B, 0x3042]).contains [Char.ofNat 0x3042] = true ∧
    (Char.ofNat 0x2000B).toNat ∈ (CodePoints.new [0x2000B, 0x3042]).codepoints ∧
    (CodePoints.new [0x2000B, 0x3042]).first_excluded_with_position
        ([Char.ofNat 0x3042] ++ Char.ofNat 0x2000B :: [Char.ofNat 0x78]) =
      ((CodePoints.new [0x2000B, 0x3042]).first_excluded_with_position
        [Char.ofNat 0x78]).map fun p => (p.1, p.2 + (1 + 1)) :=
  ⟨by decide, by decide, by decide,
    (non_bmp_char_is_single_unit (CodePoints.new [0x2000B, 0x3042])
        [Char.ofNat 0x3042] [Char.ofNat 0x78] (Char.ofNat 0x2000B)
        (by decide)).2.2.1 (by decide) (by decide)⟩

/-! ### The exclusion-count bookkeeping of contains_all_in_any -/

/-- Value stored for a key in the association list modelling the
`excluded_counts` HashMap (0 when absent). -/
def countIn : List (ℕ × ℕ) → ℕ → ℕ
  | [], _ => 0
  | (k, v) :: rest, cp => if k = cp then v else countIn rest cp

theorem countIn_bumpCount : ∀ (counts : List (ℕ × ℕ)) (cp x : ℕ),
    countIn (CodePoints.bumpCount counts cp) x =
      countIn counts x + if x = cp then 1 else 0
  | [], cp, x => by
    simp only [CodePoints.bumpCount, countIn]
    by_cases h : x = cp
    · subst h
      simp
    · rw [if_neg (fun hh : cp = x => h hh.symm), if_neg h]
  | (k, v) :: rest, cp, x => by
    simp only [CodePoints.bumpCount]
    by_cases hk : k = cp
    · subst hk
      rw [if_pos rfl]
      simp only [countIn]
      by_cases hx : k = x
      · subst hx
        simp
      · rw [if_neg hx, if_neg hx, if_neg (fun hh : x = k => hx hh.symm)]
        omega
    · rw [if_neg hk]
      simp only [countIn]
      by_cases hx : k = x
      · subst hx
        rw [if_pos rfl, if_pos rfl, if_neg (fun hh : k = cp => hk hh)]
        omega
      · rw [if_neg hx, if_neg hx, countIn_bumpCount rest cp x]

theorem mem_keys_bumpCount : ∀ (counts : List (ℕ × ℕ)) (cp x : ℕ),
    x ∈ (CodePoints.bumpCount counts cp).map Prod.fst ↔
      x ∈ counts.map Prod.fst ∨ x = cp
  | [], cp, x => by simp [CodePoints.bumpCount]
  | (k, v) :: rest, cp, x => by
    simp only [CodePoints.bumpCount]
    by_cases hk : k = cp
    · subst hk
      simp [or_assoc]
      tauto
    · rw [if_neg hk]
      simp only [List.map_cons, List.mem_cons, mem_keys_bumpCount rest cp x]
      tauto

theorem nodup_keys_bumpCount : ∀ (counts : List (ℕ × ℕ)) (cp : ℕ),
    (counts.map Prod.fst).Nodup → ((CodePoints.bumpCount counts cp).map Prod.fst).Nodup
  | [], cp, _ => by simp [CodePoints.bumpCount]
  | (k, v) :: rest, cp, h => by
    simp only [CodePoints.bumpCount]
    rw [List.map_cons, List.nodup_cons] at h
    by_cases hk : k = cp
    · subst hk
      rw [if_pos rfl, List.map_cons, List.nodup_cons]
      exact h
    · rw [if_neg hk, List.map_cons, List.nodup_cons]
      refine ⟨?_, nodup_keys_bumpCount rest cp h.2⟩
      rw [mem_keys_bumpCount]
      rintro (hmem | rfl)
      · exact h.1 hmem
      · exact hk rfl

theorem countIn_eq_of_mem : ∀ (counts : List (ℕ × ℕ)) (k v : ℕ),
    (counts.map Prod.fst).Nodup → (k, v) ∈ counts → countIn counts k = v
  | [], k, v, _, hmem => absurd hmem (List.not_mem_nil _)
  | (k0, v0) :: rest, k, v, hnd, hmem => by
    rw [List.map_cons, List.nodup_cons] at hnd
    rcases List.mem_cons.mp hmem with heq | hmem'
    · obtain ⟨rfl, rfl⟩ := Prod.mk.injEq .. ▸ And.intro (congrArg Prod.fst heq) (congrArg Prod.snd heq)
      simp [countIn]
    · have hk : k0 ≠ k := by
        intro hh
        subst hh
        exact hnd.1 (List.mem_map.mpr ⟨(k0, v), hmem', rfl⟩)
      simp only [countIn, if_neg hk]
      exact countIn_eq_of_mem rest k v hnd.2 hmem'

theorem mem_of_countIn_ne_zero : ∀ (counts : List (ℕ × ℕ)) (x : ℕ),
    countIn counts x ≠ 0 → (x, countIn counts x) ∈ counts
  | [], x, h => absurd rfl h
  | (k, v) :: rest, x, h => by
    by_cases hk : k = x
    · subst hk
      simp [countIn]
    · simp only [countIn, if_neg hk] at h ⊢
      exact List.mem_cons_of_mem _ (mem_of_countIn_ne_zero rest x h)

theorem any_count_eq_total_iff (counts : List (ℕ × ℕ)) (total : ℕ)
    (hnd : (counts.map Prod.fst).Nodup) (htot : 1 ≤ total) :
    (counts.any fun p => decide (p.2 = total)) = true ↔
      ∃ x, countIn counts x = total := by
  rw [List.any_eq_true]
  constructor
  · rintro ⟨⟨k, v⟩, hmem, hv⟩
    rw [decide_eq_true_iff] at hv
    subst hv
    exact ⟨k, countIn_eq_of_mem counts k v hnd hmem⟩
  · rintro ⟨x, hx⟩
    have hne : countIn counts x ≠ 0 := by omega
    refine ⟨(x, countIn counts x), mem_of_countIn_ne_zero counts x hne, ?_⟩
    rw [decide_eq_true_iff]
    exact hx

theorem countIn_foldl_bumpCount (E : List ℕ) :
    ∀ (counts : List (ℕ × ℕ)) (x : ℕ),
      countIn (E.foldl CodePoints.bumpCount counts) x =
        countIn counts x + E.count x := by
  induction E with
  | nil => intro counts x; simp
  | cons e E ih =>
    intro counts x
    rw [List.foldl_cons, ih (CodePoints.bumpCount counts e) x, countIn_bumpCount,
      List.count_cons]
    by_cases hxe : x = e
    · subst hxe
      simp
      omega
    · have hex : ¬ e = x := fun hh => hxe hh.symm
      simp [hxe, hex]

theorem nodup_keys_foldl_bumpCount (E : List ℕ) :
    ∀ counts : List (ℕ × ℕ), (counts.map Prod.fst).Nodup →
      ((E.foldl CodePoints.bumpCount counts).map Prod.fst).Nodup := by
  induction E with
  | nil => intro counts h; exact h
  | cons e E ih =>
    intro counts h
    rw [List.foldl_cons]
    exact ih _ (nodup_keys_bumpCount counts e h)

/-! ### Correctness of the contains_all_in_any counting loop -/

theorem caiaLoop_true_iff (s : List Char) (total : ℕ) :
    ∀ (rest : List CodePoints) (counts : List (ℕ × ℕ)),
      (counts.map Prod.fst).Nodup → 1 ≤ total →
      (∀ cp, countIn counts cp + rest.length ≤ total) →
      (CodePoints.caiaLoop s total rest counts = true ↔
        ¬ ∃ cp, countIn counts cp +
            (rest.countP fun S => decide (cp ∈ S.all_excluded s)) = total) := by
  intro rest
  induction rest with
  | nil =>
    intro counts hnd htot _hbound
    show (!(counts.any fun p => decide (p.2 = total))) = true ↔ _
    rw [Bool.not_eq_true', ← Bool.not_eq_true,
      any_count_eq_total_iff counts total hnd htot]
    simp
  | cons S rest ih =>
    intro counts hnd htot hbound
    show (if (S.all_excluded s).isEmpty then true
        else CodePoints.caiaLoop s total rest
          ((S.all_excluded s).foldl CodePoints.bumpCount counts)) = true ↔ _
    by_cases hE : (S.all_excluded s).isEmpty
    · rw [if_pos hE]
      refine iff_of_true rfl ?_
      rintro ⟨cp, hcp⟩
      have hcpE : cp ∉ S.all_excluded s := by
        rw [List.isEmpty_iff] at hE
        simp [hE]
      rw [List.countP_cons, if_neg (by simpa using hcpE)] at hcp
      have hle := List.countP_le_length (fun T => decide (cp ∈ T.all_excluded s)) (l := rest)
      have hb := hbound cp
      simp only [List.length_cons] at hb
      omega
    · rw [if_neg hE]
      have hEnodup : (S.all_excluded s).Nodup := nodup_allExcludedAux S s ∅
      have hnd' := nodup_keys_foldl_bumpCount (S.all_excluded s) counts hnd
      have hbound' : ∀ cp,
          countIn ((S.all_excluded s).foldl CodePoints.bumpCount counts) cp +
            rest.length ≤ total := by
        intro cp
        rw [countIn_foldl_bumpCount]
        have hcle := List.nodup_iff_count_le_one.mp hEnodup cp
        have hb := hbound cp
        simp only [List.length_cons] at hb
        omega
      rw [ih _ hnd' htot hbound']
      apply not_congr
      apply exists_congr
      intro cp
      rw [countIn_foldl_bumpCount, List.countP_cons]
      have hc1 : (S.all_excluded s).count cp = if cp ∈ S.all_excluded s then 1 else 0 := by
        by_cases hm : cp ∈ S.all_excluded s
        · rw [if_pos hm, List.count_eq_one_of_mem hEnodup hm]
        · rw [if_neg hm, List.count_eq_zero.mpr hm]
      rw [hc1]
      have hiff : (if decide (cp ∈ S.all_excluded s) = true then 1 else 0) =
          (if cp ∈ S.all_excluded s then 1 else 0) := by
        by_cases hm : cp ∈ S.all_excluded s
        · rw [if_pos hm, if_pos (by simpa using hm)]
        · rw [if_neg hm, if_neg (by simpa using hm)]
      rw [hiff]
      omega

theorem contains_all_in_any_iff_forall (s : List Char) (l : List CodePoints)
    (hl : l ≠ []) :
    CodePoints.contains_all_in_any s l = true ↔
      ∀ c ∈ s, ∃ S ∈ l, c.toNat ∈ S.codepoints := by
  have hlen : 1 ≤ l.length := List.length_pos.mpr hl
  show (if l.isEmpty then false else CodePoints.caiaLoop s l.length l []) = true ↔ _
  rw [if_neg (by simpa [List.isEmpty_iff] using hl)]
  rw [caiaLoop_true_iff s l.length l [] (by simp) hlen
    (fun cp => by simp [countIn])]
  constructor
  · intro h c hcs
    by_contra hnone
    push_neg at hnone
    apply h
    refine ⟨c.toNat, ?_⟩
    show 0 + _ = _
    rw [Nat.zero_add, List.countP_eq_length]
    intro S hS
    rw [decide_eq_true_iff, mem_all_excluded]
    exact ⟨List.mem_map.mpr ⟨c, hcs, rfl⟩, hnone S hS⟩
  · rintro h ⟨cp, hcp⟩
    rw [show countIn [] cp = 0 from rfl, Nat.zero_add, List.countP_eq_length] at hcp
    obtain ⟨S0, hS0⟩ := List.exists_mem_of_ne_nil l hl
    have h0 := hcp S0 hS0
    rw [decide_eq_true_iff, mem_all_excluded] at h0
    obtain ⟨hmem, _⟩ := h0
    rw [List.mem_map] at hmem
    obtain ⟨c, hcs, rfl⟩ := hmem
    obtain ⟨S1, hS1, hmem1⟩ := h c hcs
    have h1 := hcp S1 hS1
    rw [decide_eq_true_iff, mem_all_excluded] at h1
    exact h1.2 hmem1

/-! ### validate_all_in_any scanning lemmas -/

theorem vaiaAux_ok_iff (sets : List CodePoints) (s : List Char) :
    ∀ i, vaiaAux sets s i = Except.ok () ↔
      ∀ c ∈ s, ∃ S ∈ sets, S.contains_char c = true := by
  induction s with
  | nil => intro i; simp [vaiaAux]
  | cons c cs ih =>
    intro i
    show (if sets.any fun S => S.contains_char c then vaiaAux sets cs (i + 1)
        else Except.error (ValidationError.new c.toNat i)) = Except.ok () ↔ _
    by_cases h : (sets.any fun S => S.contains_char c) = true
    · rw [if_pos h, ih (i + 1)]
      rw [List.any_eq_true] at h
      constructor
      · intro hall c' hc'
        rcases List.mem_cons.mp hc' with rfl | hmem
        · exact h
        · exact hall c' hmem
      · intro hall c' hc'
        exact hall c' (List.mem_cons_of_mem _ hc')
    · rw [if_neg h]
      refine iff_of_false (by simp) ?_
      intro hall
      exact h (List.any_eq_true.mpr (hall c (List.mem_cons_self c cs)))

theorem vaiaAux_error_decomposition (sets : List CodePoints) (s : List Char) :
    ∀ i e, vaiaAux sets s i = Except.error e →
      ∃ pre c suf, s = pre ++ c :: suf ∧
        e = ValidationError.new c.toNat (i + pre.length) ∧
        (∀ S ∈ sets, S.contains_char c = false) ∧
        (∀ c' ∈ pre, ∃ S ∈ sets, S.contains_char c' = true) := by
  induction s with
  | nil => intro i e h; exact absurd h (by simp [vaiaAux])
  | cons c cs ih =>
    intro i e h
    rw [show vaiaAux sets (c :: cs) i =
      (if sets.any fun S => S.contains_char c then vaiaAux sets cs (i + 1)
        else Except.error (ValidationError.new c.toNat i)) from rfl] at h
    by_cases hany : (sets.any fun S => S.contains_char c) = true
    · rw [if_pos hany] at h
      obtain ⟨pre, c0, suf, hdec, he, hnone, hpre⟩ := ih (i + 1) e h
      refine ⟨c :: pre, c0, suf, by simp [hdec], ?_, hnone, ?_⟩
      · rw [he]
        have : i + 1 + pre.length = i + (c :: pre).length := by
          simp only [List.length_cons]
          omega
        rw [this]
      · intro c' hc'
        rcases List.mem_cons.mp hc' with rfl | hmem
        · exact List.any_eq_true.mp hany
        · exact hpre c' hmem
    · rw [if_neg hany] at h
      have he : e = ValidationError.new c.toNat i := by
        cases h
        rfl
      refine ⟨[], c, cs, rfl, by simpa using he, ?_, by simp⟩
      intro S hS
      by_contra hne
      rw [Bool.not_eq_false] at hne
      exact hany (List.any_eq_true.mpr ⟨S, hS, hne⟩)

/-! ### C2: validate_all_in_any accepts exactly the covered strings -/

/-- C2. `validate_all_in_any text sets` is `Ok` iff every character of
`text` belongs to at least one set of `sets` (vacuously for empty text,
an empty set list included); on failure the error carries exactly the
scalar value and zero-based character index of the leftmost character
contained in none of the sets. -/
theorem validate_all_in_any_ok_iff_covered (text : List Char) (sets : List CodePoints) :
    (validate_all_in_any text sets = Except.ok () ↔
      ∀ c ∈ text, ∃ S ∈ sets, S.contains_char c = true) ∧
    (∀ e, validate_all_in_any text sets = Except.error e →
      ∃ pre c suf, text = pre ++ c :: suf ∧
        e.code_point = c.toNat ∧ e.position = pre.length ∧
        (∀ S ∈ sets, S.contains_char c = false) ∧
        (∀ c' ∈ pre, ∃ S ∈ sets, S.contains_char c' = true)) := by
  constructor
  · exact vaiaAux_ok_iff sets text 0
  · intro e h
    obtain ⟨pre, c, suf, hdec, he, hnone, hpre⟩ :=
      vaiaAux_error_decomposition sets text 0 e h
    refine ⟨pre, c, suf, hdec, by rw [he]; rfl, ?_, hnone, hpre⟩
    rw [he]
    show 0 + pre.length = pre.length
    omega

/-- Witness for C2 at `text = "ab"`, `sets = [new [0x61]]`: the error
hypothesis is discharged by evaluation, giving the decomposition around
the uncovered character. -/
theorem validate_all_in_any_ok_iff_covered_witness :
    validate_all_in_any ['a', 'b'] [CodePoints.new [97]] =
      Except.error (ValidationError.new 98 1) ∧
    ∃ pre c suf, (['a', 'b'] : List Char) = pre ++ c :: suf ∧
      (ValidationError.new 98 1).code_point = c.toNat ∧
      (ValidationError.new 98 1).position = pre.length ∧
      (∀ S ∈ [CodePoints.new [97]], S.contains_char c = false) ∧
      (∀ c' ∈ pre, ∃ S ∈ [CodePoints.new [97]], S.contains_char c' = true) :=
  ⟨by decide,
    (validate_all_in_any_ok_iff_covered ['a', 'b'] [CodePoints.new [97]]).2
      (ValidationError.new 98 1) (by decide)⟩

/-! ### C3: the boolean and validating multi-set forms -/

/-- C3 counterexample: with empty text and an empty set list the two
forms disagree — `contains_all_in_any` returns false while
`validate_all_in_any` returns `Ok` — so they do not agree "in particular
also when both the text and the set list are empty". -/
theorem contains_vs_validate_both_empty_counterexample :
    ¬ (CodePoints.contains_all_in_any [] [] = true ↔
        validate_all_in_any [] [] = Except.ok ()) := by
  intro h
  have hc : CodePoints.contains_all_in_any [] [] = true := h.mpr (by decide)
  exact absurd hc (by decide)

/-- C3 (amended). Whenever the text and the set list are not both empty,
the boolean multi-set membership form and the validating form agree:
`contains_all_in_any text sets` is true iff `validate_all_in_any text
sets` returns `Ok`. (In the one remaining case — empty text with an
empty set list — the code makes them disagree.) -/
theorem contains_all_in_any_agrees_with_validate (s : List Char) (l : List CodePoints)
    (h : s ≠ [] ∨ l ≠ []) :
    (CodePoints.contains_all_in_any s l = true ↔
      validate_all_in_any s l = Except.ok ()) := by
  by_cases hl : l = []
  · subst hl
    cases s with
    | nil =>
      rcases h with h | h
      · exact absurd rfl h
      · exact absurd rfl h
    | cons c cs =>
      refine iff_of_false ?_ ?_
      · simp [CodePoints.contains_all_in_any]
      · intro hok
        obtain ⟨S, hS, _⟩ :=
          (vaiaAux_ok_iff [] (c :: cs) 0).mp hok c (List.mem_cons_self c cs)
        exact List.not_mem_nil S hS
  · rw [contains_all_in_any_iff_forall s l hl]
    rw [show validate_all_in_any s l = vaiaAux l s 0 from rfl, vaiaAux_ok_iff l s 0]
    apply forall_congr'
    intro c
    apply imp_congr_right
    intro _
    apply exists_congr
    intro S
    apply and_congr_right
    intro _
    simp [CodePoints.contains_char]

/-- Witness for C3 (amended) at `s = "x"`, `l = []`: both forms reject. -/
theorem contains_all_in_any_agrees_with_validate_witness :
    ((['x'] : List Char) ≠ [] ∨ ([] : List CodePoints) ≠ []) ∧
    (CodePoints.contains_all_in_any ['x'] [] = true ↔
      validate_all_in_any ['x'] [] = Except.ok ()) :=
  ⟨Or.inl (by simp),
    contains_all_in_any_agrees_with_validate ['x'] [] (Or.inl (by simp))⟩
